import Mathlib

/-!
Verification of the Advent-of-Code 2023 day-3 engine-schematic parser
(`src/2023/day-3/src/lib.rs`).

The Rust code is shallowly embedded: strings become `List Char`, `usize`
becomes `Nat`, `isize` becomes `Int`, fallible functions return
`Except`/`Option`, and `u32` arithmetic is carried out on `Nat` with
explicit `% 2 ^ 32` where the machine width matters.
-/

set_option maxHeartbeats 1000000
set_option maxRecDepth 100000

deriving instance DecidableEq for Except

namespace AocDay3

/-- Rust `char::is_ascii` / `u8::is_ascii`: code point below 128. -/
def isAsciiChar (c : Char) : Bool := c.toNat < 128

/-- Rust `str::is_ascii`: every character (equivalently, every byte) is ASCII. -/
def isAsciiStr (s : List Char) : Bool := s.all isAsciiChar

/-- Rust `is_ascii_digit`: the character is one of `0`..`9`. -/
def isAsciiDigit (c : Char) : Bool := 48 ≤ c.toNat && c.toNat ≤ 57

/-- Rust `char::is_whitespace`: the Unicode White_Space property. -/
def isRustWhitespace (c : Char) : Bool :=
  (9 ≤ c.toNat && c.toNat ≤ 13) || c.toNat == 32 || c.toNat == 133 || c.toNat == 160 ||
    c.toNat == 5760 || (8192 ≤ c.toNat && c.toNat ≤ 8202) || c.toNat == 8232 ||
    c.toNat == 8233 || c.toNat == 8239 || c.toNat == 8287 || c.toNat == 12288

/-- Rust `str::trim`: remove leading and trailing whitespace. -/
def trim (s : List Char) : List Char :=
  ((s.dropWhile isRustWhitespace).reverse.dropWhile isRustWhitespace).reverse

/-- Rust `str::lines`, as used at its two call sites in `lib.rs`: split on
`'\x0a'`; a trailing newline does not produce a final empty line. Rust
additionally strips a `'\x0d'` before each `'\x0a'`; both call sites
immediately `trim()` every line, which removes any trailing `'\x0d'` as
whitespace, so that strip is folded into `trim` here. -/
def linesOf (s : List Char) : List (List Char) :=
  match s with
  | [] => []
  | _ :: _ =>
    if s.getLast? = some '\n' then (s.splitOn '\n').dropLast else s.splitOn '\n'

/-- The per-line-trimmed lines of the input, `s.lines().map(|l| l.trim())`,
shared by `SymbolMap::from_str` and `Schematic::from_str`. -/
def trimmedLines (s : List Char) : List (List Char) := (linesOf s).map trim

/-- Rust `enum ParseSchematicError`. -/
inductive ParseSchematicError where
  | NotAscii : ParseSchematicError
  | InputEmpty : ParseSchematicError
  | Line : Nat → String → ParseSchematicError
deriving DecidableEq, Repr

/-- Rust `struct InvalidAddressError(usize, usize)`. -/
structure InvalidAddressError where
  x : Nat
  y : Nat
deriving DecidableEq, Repr

/-- Rust `struct SymbolMap`: a row-major flat boolean grid. -/
structure SymbolMap where
  num_lines : Nat
  line_length : Nat
  map : List Bool
deriving DecidableEq, Repr

/-- The per-character classification in `SymbolMap::from_str`:
`|c: char| !c.is_ascii_digit() && c != '.'`. -/
def symbolPredicate (c : Char) : Bool := !(isAsciiDigit c) && !(c == '.')

/-- The line loop of `SymbolMap::from_str`: check each line's length against
the first line's, and append the boolean classification of its characters. -/
def buildRows (line_length : Nat) :
    List (List Char) → Nat → Except ParseSchematicError (List Bool)
  | [], _ => .ok []
  | line :: rest, line_no =>
    if line.length ≠ line_length then .error (.Line line_no "Line length mismatch")
    else
      match buildRows line_length rest (line_no + 1) with
      | .error e => .error e
      | .ok tail => .ok (line.map symbolPredicate ++ tail)

/-- Rust `SymbolMap::from_str` (`impl FromStr for SymbolMap`). The Rust check
`line_length >= isize::MAX as usize` is `line_length ≥ 2 ^ 63 - 1` on the
64-bit targets the crate builds for. -/
def SymbolMap.from_str (s : List Char) : Except ParseSchematicError SymbolMap :=
  if !(isAsciiStr s) then .error .NotAscii
  else
    match trimmedLines s with
    | [] => .error .InputEmpty
    | first_line :: _ =>
      if first_line.length ≥ 2 ^ 63 - 1 then .error (.Line 0 "Input line too long")
      else
        match buildRows first_line.length (trimmedLines s) 0 with
        | .error e => .error e
        | .ok mp =>
          .ok { num_lines := (trimmedLines s).length
                line_length := first_line.length
                map := mp }

/-- Rust `SymbolMap::is_symbol`. For maps built by `from_str` the index
`y * line_length + x` is always in range once the bounds check passes, so the
`getD` default is never consulted there. -/
def SymbolMap.is_symbol (m : SymbolMap) (x y : Nat) : Except InvalidAddressError Bool :=
  if x ≥ m.line_length ∨ y ≥ m.num_lines then .error ⟨x, y⟩
  else .ok (m.map.getD (y * m.line_length + x) false)

/-- Rust `std::collections::Bound<isize>`: one end of a generic range. -/
inductive RBound where
  | included : Int → RBound
  | excluded : Int → RBound
  | unbounded : RBound
deriving DecidableEq, Repr

/-- Rust `SymbolMap::contains_symbol`, for a range given by its two bounds.
In the unbounded-end branch Rust computes `(self.line_length - 1) as isize`
in `usize`, which for `line_length = 0` wraps to `usize::MAX` and reinterprets
as `-1`; since parsing guarantees `line_length < isize::MAX`, that branch is
exactly `(line_length : Int) - 1`. -/
def SymbolMap.contains_symbol (m : SymbolMap) (lo hi : RBound) (row : Int) : Bool :=
  if row < 0 ∨ row.toNat ≥ m.num_lines then false
  else
    let rowN := row.toNat
    let start : Int :=
      match lo with
      | .included idx => max idx 0
      | .excluded idx => max (idx + 1) 0
      | .unbounded => 0
    let stop : Int :=
      match hi with
      | .included idx => min idx ((m.line_length : Int) - 1)
      | .excluded idx => min (max (idx - 1) 0) ((m.line_length : Int) - 1)
      | .unbounded => (m.line_length : Int) - 1
    if start > stop then false
    else if stop.toNat ≥ m.line_length then false
    else
      let line := (m.map.drop (rowN * m.line_length)).take m.line_length
      let segment := (line.drop start.toNat).take (stop.toNat - start.toNat + 1)
      segment.any (fun is_sym => is_sym)

/-- Rust `SymbolMap::is_next_to_symbol`, taking the `RangeInclusive<isize>`
argument as its two endpoints. Faithfully reproduces the four checks of the
source (the same row is queried twice, labeled left and right). -/
def SymbolMap.is_next_to_symbol (m : SymbolMap) (lo hi row : Int) : Bool :=
  let symbol_on_top := m.contains_symbol (.included lo) (.included hi) (row - 1)
  let symbol_on_bottom := m.contains_symbol (.included lo) (.included hi) (row + 1)
  let symbol_on_left := m.contains_symbol (.included lo) (.included hi) row
  let symbol_on_right := m.contains_symbol (.included lo) (.included hi) row
  symbol_on_top || symbol_on_bottom || symbol_on_left || symbol_on_right

/-- Rust `struct PartNumber`. `value` is the parsed `u32`, kept as a `Nat`
that parsing guarantees below `2 ^ 32`. -/
structure PartNumber where
  row : Nat
  pos : Nat
  len : Nat
  value : Nat
deriving DecidableEq, Repr

/-- Numeric value of an ASCII digit character. -/
def digitVal (c : Char) : Nat := c.toNat - 48

/-- The base-10 value of a digit string. -/
def digitsVal (ds : List Char) : Nat := ds.foldl (fun acc c => 10 * acc + digitVal c) 0

/-- Rust `u32::from_str` on an unsigned digit string: fails on an empty
string, on a non-digit, and on overflow past `u32::MAX`. -/
def parseU32Digits (ds : List Char) : Option Nat :=
  if ds = [] then none
  else if !(ds.all isAsciiDigit) then none
  else if digitsVal ds < 2 ^ 32 then some (digitsVal ds) else none

/-- Rust `u32::from_str`, specialised to inputs without a leading minus sign
(the scanner only ever passes maximal digit runs). -/
def parseU32 (ds : List Char) : Option Nat :=
  match ds with
  | '+' :: rest => parseU32Digits rest
  | _ => parseU32Digits ds

/-- Rust `Iterator::position` over the remaining characters: index of the
first element satisfying `p`, if any. -/
def position (p : Char → Bool) : List Char → Option Nat
  | [] => none
  | c :: rest => if p c then some 0 else (position p rest).map (· + 1)

theorem position_eq_some_lt (p : Char → Bool) (l : List Char) (d : Nat)
    (h : position p l = some d) : d < l.length := by
  induction l generalizing d with
  | nil => simp [position] at h
  | cons c rest ih =>
    by_cases hc : p c
    · simp [position, hc] at h
      simp
      omega
    · simp [position, hc] at h
      obtain ⟨d0, hd0, rfl⟩ := h
      have := ih d0 hd0
      simp
      omega

theorem position_drop (p : Char → Bool) (l : List Char) (d : Nat)
    (h : position p l = some d) :
    ∃ c t, l.drop d = c :: t ∧ p c = true := by
  induction l generalizing d with
  | nil => simp [position] at h
  | cons c rest ih =>
    by_cases hc : p c
    · simp [position, hc] at h
      subst h
      exact ⟨c, rest, rfl, hc⟩
    · simp [position, hc] at h
      obtain ⟨d0, hd0, rfl⟩ := h
      simpa using ih d0 hd0

theorem position_take_all (p : Char → Bool) (l : List Char) (d : Nat)
    (h : position p l = some d) : (l.take d).all (fun c => !(p c)) = true := by
  induction l generalizing d with
  | nil => simp [position] at h
  | cons c rest ih =>
    by_cases hc : p c
    · simp [position, hc] at h
      subst h
      simp
    · simp [position, hc] at h
      obtain ⟨d0, hd0, rfl⟩ := h
      simpa [hc] using ih d0 hd0

theorem position_eq_none (p : Char → Bool) (l : List Char)
    (h : position p l = none) : l.all (fun c => !(p c)) = true := by
  induction l with
  | nil => simp
  | cons c rest ih =>
    by_cases hc : p c
    · simp [position, hc] at h
    · simp [position, hc] at h
      simp [hc, ih h]

theorem position_cons_succ (p : Char → Bool) (c : Char) (t : List Char)
    (hc : p c = false) :
    position p (c :: t) = (position p t).map (· + 1) := by
  simp [position, hc]

/-- Progress fact for the scanning loop: the next cursor position strictly
exceeds the previous one, because the run found at `start_pos + d` starts
with a digit. -/
theorem scan_progress (line : List Char) (start_pos d : Nat)
    (hfd : position isAsciiDigit (line.drop start_pos) = some d) :
    start_pos < start_pos + d +
      ((position (fun c => !(isAsciiDigit c)) (line.drop (start_pos + d))).getD
        (line.length - (start_pos + d))) := by
  obtain ⟨c, t, hdrop, hdig⟩ := position_drop _ _ _ hfd
  have hlt := position_eq_some_lt _ _ _ hfd
  have hdrop2 : line.drop (start_pos + d) = c :: t := by
    rw [← List.drop_drop, hdrop]
  rw [hdrop2]
  have hc : (fun c => !(isAsciiDigit c)) c = false := by simp [hdig]
  rw [position_cons_succ _ _ _ hc]
  cases hpos : position (fun c => !(isAsciiDigit c)) t with
  | none =>
    simp only [Option.map, Option.getD]
    have := List.length_drop start_pos line
    omega
  | some j =>
    simp only [Option.map, Option.getD]
    omega

/-- One iteration step of the `while start_pos < line_len` scanning loop
inside `Schematic::from_str`, structured on an explicit fuel. The fuel is
the loop variant `line_len - start_pos`: the cursor strictly advances each
iteration (`scan_progress`), so a call with fuel at least the variant never
hits the fuel-exhausted case with the loop guard still true, and exhausted
fuel coincides with the guard-false loop exit. -/
def scanLineGo (sym : SymbolMap) (line_len : Nat) (line_no : Nat) (line : List Char) :
    Nat → Nat → Except ParseSchematicError (List (PartNumber × Bool))
  | 0, _ => .ok []
  | fuel + 1, start_pos =>
    if start_pos < line_len then
      match position isAsciiDigit (line.drop start_pos) with
      | none => .ok []
      | some d =>
        let first_digit := start_pos + d
        let first_non_digit := first_digit +
          ((position (fun c => !(isAsciiDigit c)) (line.drop first_digit)).getD
            (line.length - first_digit))
        let digit := (line.drop first_digit).take (first_non_digit - first_digit)
        let next_to_symbol :=
          sym.is_next_to_symbol ((first_digit : Int) - 1) (first_non_digit : Int) (line_no : Int)
        match parseU32 digit with
        | none => .error (.Line line_no "Failed to parse part number")
        | some v =>
          match scanLineGo sym line_len line_no line fuel first_non_digit with
          | .error e => .error e
          | .ok rest =>
            .ok (({ row := line_no, pos := first_digit, len := digit.length, value := v },
                  next_to_symbol) :: rest)
    else .ok []

/-- The `while start_pos < line_len` scanning loop inside
`Schematic::from_str`, for one line. Returns the scanned part numbers of the
line in order, each paired with its `next_to_symbol` classification. -/
def scanLine (sym : SymbolMap) (line_len : Nat) (line_no : Nat) (line : List Char)
    (start_pos : Nat) : Except ParseSchematicError (List (PartNumber × Bool)) :=
  scanLineGo sym line_len line_no line (line_len - start_pos) start_pos

/-- The `'line: for (line_no, line) in s.lines().map(|l| l.trim()).enumerate()`
loop of `Schematic::from_str`: blank lines are skipped (but still counted by
`enumerate`), all other lines are scanned. -/
def scanLines (sym : SymbolMap) (line_len : Nat) :
    List (List Char) → Nat → Except ParseSchematicError (List (PartNumber × Bool))
  | [], _ => .ok []
  | line :: rest, line_no =>
    if line = [] then scanLines sym line_len rest (line_no + 1)
    else
      match scanLine sym line_len line_no line 0 with
      | .error e => .error e
      | .ok parts =>
        match scanLines sym line_len rest (line_no + 1) with
        | .error e => .error e
        | .ok more => .ok (parts ++ more)

/-- The two `valid.push(part)` / `invalid.push(part)` accumulators of
`Schematic::from_str`, applied to the scanned parts in order. -/
def partitionParts : List (PartNumber × Bool) → List PartNumber × List PartNumber
  | [] => ([], [])
  | pb :: rest =>
    let others := partitionParts rest
    if pb.2 then (pb.1 :: others.1, others.2) else (others.1, pb.1 :: others.2)

/-- Rust `struct Schematic`. -/
structure Schematic where
  valid : List PartNumber
  invalid : List PartNumber
deriving DecidableEq, Repr

/-- Rust `Schematic::from_str` (`impl FromStr for Schematic`). -/
def Schematic.from_str (s : List Char) : Except ParseSchematicError Schematic :=
  match SymbolMap.from_str s with
  | .error e => .error e
  | .ok symbol_map =>
    match scanLines symbol_map symbol_map.line_length (trimmedLines s) 0 with
    | .error e => .error e
    | .ok parts =>
      .ok { valid := (partitionParts parts).1, invalid := (partitionParts parts).2 }

/-- Rust `Schematic::num_valid`. -/
def Schematic.num_valid (sch : Schematic) : Nat := sch.valid.length

/-- Rust `Schematic::sum_valid_parts`: a `u32` fold of `sum + part.value`;
`u32` addition is modulo `2 ^ 32`. -/
def Schematic.sum_valid_parts (sch : Schematic) : Nat :=
  sch.valid.foldl (fun sum part => (sum + part.value) % 2 ^ 32) 0

/-! ### Concrete inputs used by the claims -/

/-- The 10x11 example grid from the repository's test and the spec. -/
def exampleGrid : List Char :=
  ("467..114..\n...*......\n..35..633.\n......#...\n617*......\n" ++
   ".....+.58.\n..592.....\n......755.\n...$.*....\n.664.598..\n......*997").toList

/-! ### Inversion lemmas for `buildRows` and `SymbolMap.from_str` -/

theorem buildRows_ok_length {L : Nat} {lines : List (List Char)} {n : Nat} {mp : List Bool}
    (h : buildRows L lines n = .ok mp) :
    mp.length = lines.length * L ∧ ∀ l ∈ lines, l.length = L := by
  induction lines generalizing n mp with
  | nil =>
    simp [buildRows] at h
    simp [← h]
  | cons line rest ih =>
    rw [buildRows] at h
    by_cases hl : line.length = L
    · rw [if_neg (fun hne => hne hl)] at h
      cases hb : buildRows L rest (n + 1) with
      | error e => rw [hb] at h; exact absurd h (by simp)
      | ok tail =>
        rw [hb] at h
        simp only [Except.ok.injEq] at h
        obtain ⟨hlen, hall⟩ := ih hb
        subst h
        constructor
        · simp only [List.length_append, List.length_map, List.length_cons, hlen, hl]
          ring
        · intro l hmem
          rw [List.mem_cons] at hmem
          rcases hmem with rfl | hmem
          · exact hl
          · exact hall l hmem
    · rw [if_pos hl] at h
      exact absurd h (by simp)

theorem buildRows_ok_getD {L : Nat} {lines : List (List Char)} {n : Nat} {mp : List Bool}
    (h : buildRows L lines n = .ok mp) (y x : Nat) (hy : y < lines.length) (hx : x < L) :
    mp.getD (y * L + x) false = symbolPredicate ((lines.getD y []).getD x ' ') := by
  induction lines generalizing n mp y with
  | nil => simp at hy
  | cons line rest ih =>
    rw [buildRows] at h
    by_cases hl : line.length = L
    · rw [if_neg (fun hne => hne hl)] at h
      cases hb : buildRows L rest (n + 1) with
      | error e => rw [hb] at h; exact absurd h (by simp)
      | ok tail =>
        rw [hb] at h
        simp only [Except.ok.injEq] at h
        subst h
        cases y with
        | zero =>
          rw [List.getD_cons_zero, Nat.zero_mul, Nat.zero_add,
            List.getD_eq_getElem?_getD, List.getElem?_append]
          have hxlen : x < line.length := by omega
          have hxl : x < (List.map symbolPredicate line).length := by
            simp [hxlen]
          rw [if_pos hxl, List.getElem?_map, List.getElem?_eq_getElem hxlen,
            List.getD_eq_getElem?_getD, List.getElem?_eq_getElem hxlen]
          rfl
        | succ y0 =>
          rw [List.getD_cons_succ, List.getD_eq_getElem?_getD]
          have hidx : (y0 + 1) * L + x = (List.map symbolPredicate line).length + (y0 * L + x) := by
            simp only [List.length_map, hl]
            ring
          rw [hidx, List.getElem?_append_right (by omega), Nat.add_sub_cancel_left]
          have hrec := ih hb y0 (by simpa using hy)
          rw [List.getD_eq_getElem?_getD] at hrec
          exact hrec
    · rw [if_pos hl] at h
      exact absurd h (by simp)

theorem symbolMap_from_str_inv {s : List Char} {m : SymbolMap}
    (hm : SymbolMap.from_str s = .ok m) :
    isAsciiStr s = true ∧
    m.num_lines = (trimmedLines s).length ∧
    m.line_length = ((trimmedLines s).headD []).length ∧
    m.line_length < 2 ^ 63 - 1 ∧
    trimmedLines s ≠ [] ∧
    buildRows m.line_length (trimmedLines s) 0 = .ok m.map := by
  unfold SymbolMap.from_str at hm
  cases ha : isAsciiStr s with
  | false => rw [ha] at hm; exact absurd hm (by simp)
  | true =>
    rw [ha] at hm
    simp only [Bool.not_true, Bool.false_eq_true, if_false] at hm
    split at hm
    · exact absurd hm (by simp)
    · rename_i first tail ht
      split at hm
      · exact absurd hm (by simp)
      · rename_i hlong
        cases hb : buildRows first.length (trimmedLines s) 0 with
        | error e => rw [hb] at hm; exact absurd hm (by simp)
        | ok mp =>
          rw [hb] at hm
          simp only [Except.ok.injEq] at hm
          subst hm
          refine ⟨rfl, rfl, by rw [ht]; rfl, by simp at hlong ⊢; omega, by rw [ht]; simp, hb⟩

/-! ### C10: the ASCII check precedes every other parse failure -/

/-- C10: for every input containing a non-ASCII character, both `SymbolMap`
and `Schematic` construction return `NotAscii` (never a line-scoped error),
because the whole input is checked for ASCII before any line is examined. -/
theorem notascii_precedence (s : List Char) (h : isAsciiStr s = false) :
    SymbolMap.from_str s = .error .NotAscii ∧ Schematic.from_str s = .error .NotAscii := by
  have h1 : SymbolMap.from_str s = .error .NotAscii := by
    unfold SymbolMap.from_str
    rw [h]
    rfl
  refine ⟨h1, ?_⟩
  unfold Schematic.from_str
  rw [h1]

/-- Witness for `notascii_precedence` at the concrete non-ASCII input `é`. -/
theorem notascii_precedence_witness :
    SymbolMap.from_str ("é").toList = .error .NotAscii ∧
    Schematic.from_str ("é").toList = .error .NotAscii :=
  notascii_precedence (("é").toList) (by decide)

/-! ### C5: `is_symbol` bounds errors; out-of-grid rows in `contains_symbol` -/

/-- C5: for every parsed `SymbolMap`, `is_symbol (x, y)` fails with
`InvalidAddress (x, y)` exactly when `x ≥ line_length` or `y ≥ num_lines`
(including `y = num_lines` exactly), and `contains_symbol` never fails for
out-of-grid rows: it returns `false` for every column range whenever
`row < 0` or `row ≥ num_lines`. -/
theorem is_symbol_bounds (s : List Char) (m : SymbolMap)
    (_hm : SymbolMap.from_str s = .ok m) :
    (∀ x y : Nat, (m.is_symbol x y = .error ⟨x, y⟩ ↔ m.line_length ≤ x ∨ m.num_lines ≤ y)) ∧
    (∀ lo hi : RBound, ∀ row : Int, row < 0 ∨ (m.num_lines : Int) ≤ row →
      m.contains_symbol lo hi row = false) := by
  constructor
  · intro x y
    constructor
    · intro h
      by_contra hcon
      push_neg at hcon
      unfold SymbolMap.is_symbol at h
      rw [if_neg (by omega)] at h
      exact absurd h (by simp)
    · intro h
      unfold SymbolMap.is_symbol
      rw [if_pos (by omega)]
  · intro lo hi row hrow
    unfold SymbolMap.contains_symbol
    rw [if_pos (show row < 0 ∨ row.toNat ≥ m.num_lines by omega)]

/-- Witness for `is_symbol_bounds` on the parsed single-line grid
`...$.*....`: the boundary address `(9, 1)` with `y = num_lines` errors, and
a query at row 1 (just past the grid) returns `false`. -/
theorem is_symbol_bounds_witness :
    ((SymbolMap.mk 1 10 [false, false, false, true, false, true, false, false, false, false]
      ).is_symbol 9 1 = .error ⟨9, 1⟩) ∧
    ((SymbolMap.mk 1 10 [false, false, false, true, false, true, false, false, false, false]
      ).contains_symbol (.included 0) (.included 9) 1 = false) := by
  have h := is_symbol_bounds (("...$.*....").toList)
    (SymbolMap.mk 1 10 [false, false, false, true, false, true, false, false, false, false])
    (by decide)
  exact ⟨(h.1 9 1).mpr (by decide), h.2 (.included 0) (.included 9) 1 (by decide)⟩

/-! ### C6: `is_next_to_symbol` is the three-row disjunction -/

/-- C6: for every parsed `SymbolMap`, inclusive column range and signed row,
`is_next_to_symbol` is true exactly when `contains_symbol` holds for one of
the rows `row - 1`, `row`, `row + 1` over the same column range: the
implementation's fourth check (the same row queried twice, labeled left and
right) is behaviorally equivalent to the three-row disjunction. -/
theorem next_to_symbol_three_rows (s : List Char) (m : SymbolMap)
    (_hm : SymbolMap.from_str s = .ok m) (lo hi row : Int) :
    (m.is_next_to_symbol lo hi row = true ↔
      (m.contains_symbol (.included lo) (.included hi) (row - 1) = true ∨
       m.contains_symbol (.included lo) (.included hi) row = true ∨
       m.contains_symbol (.included lo) (.included hi) (row + 1) = true)) := by
  unfold SymbolMap.is_next_to_symbol
  simp only [Bool.or_eq_true]
  tauto

/-- Witness for `next_to_symbol_three_rows` on the parsed grid
`...$.*....` with columns `[0, 9]` and row 0. -/
theorem next_to_symbol_three_rows_witness :
    ((SymbolMap.mk 1 10 [false, false, false, true, false, true, false, false, false, false]
      ).is_next_to_symbol 0 9 0 = true ↔
      ((SymbolMap.mk 1 10 [false, false, false, true, false, true, false, false, false, false]
        ).contains_symbol (.included 0) (.included 9) (0 - 1) = true ∨
       (SymbolMap.mk 1 10 [false, false, false, true, false, true, false, false, false, false]
        ).contains_symbol (.included 0) (.included 9) 0 = true ∨
       (SymbolMap.mk 1 10 [false, false, false, true, false, true, false, false, false, false]
        ).contains_symbol (.included 0) (.included 9) (0 + 1) = true)) :=
  next_to_symbol_three_rows (("...$.*....").toList)
    (SymbolMap.mk 1 10 [false, false, false, true, false, true, false, false, false, false])
    (by decide) 0 9 0

/-! ### C1: the example grid -/

/-- C1 (amended): parsing the 10x11 example grid succeeds; the valid parts
are exactly the nine values 467, 35, 633, 617, 592, 755, 664, 598, 997 (in
scan order), the invalid parts are exactly 114 and 58, `num_valid` is 9, and
`sum_valid_parts` is 5358, the sum of the nine valid values. -/
theorem example_grid_parses :
    (Schematic.from_str exampleGrid).map
      (fun sch => (sch.valid.map (fun p => p.value), sch.invalid.map (fun p => p.value),
        sch.num_valid, sch.sum_valid_parts)) =
      .ok ([467, 35, 633, 617, 592, 755, 664, 598, 997], [114, 58], 9, 5358) := by
  decide

/-- C1 counterexample: the claim states `sum_valid_parts` returns 4361 on the
example grid, but the nine valid values sum to 5358 (the claimed 4361 is the
sum for the original ten-line grid without the final `......*997` line). -/
theorem example_grid_sum_cex :
    (Schematic.from_str exampleGrid).map Schematic.sum_valid_parts = .ok 5358 ∧
    (Schematic.from_str exampleGrid).map Schematic.sum_valid_parts ≠ .ok 4361 := by
  exact ⟨by decide, by decide⟩

/-! ### C7: `sum_valid_parts` sums modulo `2 ^ 32` -/

theorem foldl_mod_add (vs : List Nat) (a : Nat) :
    vs.foldl (fun sum v => (sum + v) % 2 ^ 32) (a % 2 ^ 32) = (a + vs.sum) % 2 ^ 32 := by
  induction vs generalizing a with
  | nil => simp
  | cons v vs ih =>
    simp only [List.foldl_cons, List.sum_cons]
    rw [Nat.mod_add_mod, ih (a + v)]
    ring_nf

/-- C7 (amended): for every constructed `Schematic`, `sum_valid_parts`
returns the sum of the valid values reduced modulo `2 ^ 32` (the `u32`
accumulator width), which equals the exact mathematical sum exactly when
that sum fits in 32 bits. -/
theorem sum_valid_parts_mod (s : List Char) (sch : Schematic)
    (_h : Schematic.from_str s = .ok sch) :
    sch.sum_valid_parts = (sch.valid.map (fun p => p.value)).sum % 2 ^ 32 ∧
    ((sch.valid.map (fun p => p.value)).sum < 2 ^ 32 →
      sch.sum_valid_parts = (sch.valid.map (fun p => p.value)).sum) := by
  have hmain : sch.sum_valid_parts = (sch.valid.map (fun p => p.value)).sum % 2 ^ 32 := by
    unfold Schematic.sum_valid_parts
    have h1 := foldl_mod_add (sch.valid.map (fun p => p.value)) 0
    rw [List.foldl_map] at h1
    simpa using h1
  refine ⟨hmain, fun hlt => ?_⟩
  rw [hmain, Nat.mod_eq_of_lt hlt]

/-- Witness for `sum_valid_parts_mod` at the parsed input `1*2`. -/
theorem sum_valid_parts_mod_witness :
    (Schematic.mk [PartNumber.mk 0 0 1 1, PartNumber.mk 0 2 1 2] []).sum_valid_parts =
      ((Schematic.mk [PartNumber.mk 0 0 1 1, PartNumber.mk 0 2 1 2] []).valid.map
        (fun p => p.value)).sum % 2 ^ 32 ∧
    (((Schematic.mk [PartNumber.mk 0 0 1 1, PartNumber.mk 0 2 1 2] []).valid.map
        (fun p => p.value)).sum < 2 ^ 32 →
      (Schematic.mk [PartNumber.mk 0 0 1 1, PartNumber.mk 0 2 1 2] []).sum_valid_parts =
        ((Schematic.mk [PartNumber.mk 0 0 1 1, PartNumber.mk 0 2 1 2] []).valid.map
          (fun p => p.value)).sum) :=
  sum_valid_parts_mod (("1*2").toList)
    (Schematic.mk [PartNumber.mk 0 0 1 1, PartNumber.mk 0 2 1 2] []) (by decide)

/-- C7 counterexample: on the input `4000000000#4000000000` both runs are
valid and their true sum 8000000000 exceeds `u32::MAX`; `sum_valid_parts`
returns 3705032704 = 8000000000 mod `2 ^ 32`, not the exact sum. -/
theorem sum_overflow_cex :
    (Schematic.from_str (("4000000000#4000000000").toList)).map
      (fun sch => (sch.sum_valid_parts, (sch.valid.map (fun p => p.value)).sum)) =
      .ok (3705032704, 8000000000) ∧ (3705032704 : Nat) ≠ 8000000000 := by
  exact ⟨by decide, by decide⟩

/-! ### C2: `contains_symbol` bound resolution -/

/-- The claim's resolution of the lower column bound: an included bound maps
directly floored at 0, an excluded bound becomes `bound + 1` floored at 0, an
unbounded bound is 0. -/
def specResolvedStart (lo : RBound) : Int :=
  match lo with
  | .included idx => max idx 0
  | .excluded idx => max (idx + 1) 0
  | .unbounded => 0

/-- The claim's resolution of the upper column bound, as amended: an included
bound maps directly, an excluded bound becomes `bound - 1` floored at 0 (the
floor is the amendment — the code computes `(idx - 1).max(0)`), an unbounded
bound is `line_length - 1`; the result is clamped to `line_length - 1`. -/
def specResolvedEnd (line_length : Nat) (hi : RBound) : Int :=
  match hi with
  | .included idx => min idx ((line_length : Int) - 1)
  | .excluded idx => min (max (idx - 1) 0) ((line_length : Int) - 1)
  | .unbounded => (line_length : Int) - 1

theorem specResolvedStart_nonneg (lo : RBound) : 0 ≤ specResolvedStart lo := by
  cases lo <;> simp [specResolvedStart]

theorem contains_symbol_eq (m : SymbolMap) (lo hi : RBound) (row : Int) :
    m.contains_symbol lo hi row =
      if row < 0 ∨ row.toNat ≥ m.num_lines then false
      else if specResolvedStart lo > specResolvedEnd m.line_length hi then false
      else if (specResolvedEnd m.line_length hi).toNat ≥ m.line_length then false
      else ((((m.map.drop (row.toNat * m.line_length)).take m.line_length).drop
        (specResolvedStart lo).toNat).take
          ((specResolvedEnd m.line_length hi).toNat - (specResolvedStart lo).toNat + 1)).any
            (fun is_sym => is_sym) := by
  cases lo <;> cases hi <;> rfl

theorem slice_any_iff (mp : List Bool) (N L rowN a b : Nat)
    (hlen : mp.length = N * L) (hrow : rowN < N) (hb : b < L) (hab : a ≤ b) :
    ((((mp.drop (rowN * L)).take L).drop a).take (b - a + 1)).any (fun x => x) = true ↔
      ∃ c : Nat, a ≤ c ∧ c ≤ b ∧ mp.getD (rowN * L + c) false = true := by
  rw [List.any_eq_true]
  constructor
  · rintro ⟨x, hxmem, hx⟩
    have hx2 : x = true := by simpa using hx
    rw [List.mem_iff_getElem?] at hxmem
    obtain ⟨i, hi⟩ := hxmem
    rw [List.getElem?_take] at hi
    by_cases hib : i < b - a + 1
    · rw [if_pos hib, List.getElem?_drop, List.getElem?_take] at hi
      by_cases hial : a + i < L
      · rw [if_pos hial, List.getElem?_drop] at hi
        refine ⟨a + i, by omega, by omega, ?_⟩
        rw [List.getD_eq_getElem?_getD, hi]
        simp [hx2]
      · rw [if_neg hial] at hi
        exact absurd hi (by simp)
    · rw [if_neg hib] at hi
      exact absurd hi (by simp)
  · rintro ⟨c, hac, hcb, hc⟩
    refine ⟨true, ?_, rfl⟩
    rw [List.mem_iff_getElem?]
    refine ⟨c - a, ?_⟩
    rw [List.getElem?_take, if_pos (by omega), List.getElem?_drop, List.getElem?_take,
      if_pos (by omega), List.getElem?_drop]
    have hidx : rowN * L + (a + (c - a)) = rowN * L + c := by omega
    rw [hidx]
    have hlt : rowN * L + c < mp.length := by
      rw [hlen]
      have h2 : rowN * L + L ≤ N * L := by
        calc rowN * L + L = (rowN + 1) * L := by ring
        _ ≤ N * L := Nat.mul_le_mul_right L hrow
      omega
    rw [List.getD_eq_getElem?_getD, List.getElem?_eq_getElem hlt] at hc
    rw [List.getElem?_eq_getElem hlt]
    simpa using hc

/-- C2 (amended): for every parsed `SymbolMap` and every in-grid signed row,
`contains_symbol` resolves the column range as described (with the excluded
upper bound floored at 0, matching the code's `(idx - 1).max(0)`), returns
false when the resolved start exceeds the resolved end or the resolved end is
outside the grid, and otherwise returns true exactly when some cell of the
row within the resolved inclusive column interval is a symbol. -/
theorem contains_symbol_resolution (s : List Char) (m : SymbolMap)
    (hm : SymbolMap.from_str s = .ok m) (lo hi : RBound) (row : Int)
    (hrow0 : 0 ≤ row) (hrowN : row < (m.num_lines : Int)) :
    (specResolvedStart lo > specResolvedEnd m.line_length hi →
      m.contains_symbol lo hi row = false) ∧
    ((m.line_length : Int) ≤ specResolvedEnd m.line_length hi →
      m.contains_symbol lo hi row = false) ∧
    (specResolvedStart lo ≤ specResolvedEnd m.line_length hi →
      specResolvedEnd m.line_length hi < (m.line_length : Int) →
      (m.contains_symbol lo hi row = true ↔
        ∃ c : Nat, specResolvedStart lo ≤ (c : Int) ∧
          (c : Int) ≤ specResolvedEnd m.line_length hi ∧
          m.is_symbol c row.toNat = .ok true)) := by
  obtain ⟨-, hN, -, -, -, hbuild⟩ := symbolMap_from_str_inv hm
  have hmaplen : m.map.length = m.num_lines * m.line_length := by
    rw [hN]
    exact (buildRows_ok_length hbuild).1
  have hrowcond : ¬(row < 0 ∨ row.toNat ≥ m.num_lines) := by omega
  refine ⟨?_, ?_, ?_⟩
  · intro hgt
    rw [contains_symbol_eq, if_neg hrowcond, if_pos hgt]
  · intro hge
    rw [contains_symbol_eq, if_neg hrowcond]
    by_cases hgt : specResolvedStart lo > specResolvedEnd m.line_length hi
    · rw [if_pos hgt]
    · rw [if_neg hgt,
        if_pos (show (specResolvedEnd m.line_length hi).toNat ≥ m.line_length by omega)]
  · intro hle hlt
    have hSnn : 0 ≤ specResolvedStart lo := specResolvedStart_nonneg lo
    have hEnn : 0 ≤ specResolvedEnd m.line_length hi := le_trans hSnn hle
    rw [contains_symbol_eq, if_neg hrowcond, if_neg (show ¬_ from not_lt.mpr hle),
      if_neg (show ¬((specResolvedEnd m.line_length hi).toNat ≥ m.line_length) by omega)]
    rw [slice_any_iff m.map m.num_lines m.line_length row.toNat
      (specResolvedStart lo).toNat (specResolvedEnd m.line_length hi).toNat
      hmaplen (by omega) (by omega) (by omega)]
    constructor
    · rintro ⟨c, h1, h2, h3⟩
      refine ⟨c, by omega, by omega, ?_⟩
      unfold SymbolMap.is_symbol
      rw [if_neg (by omega), h3]
    · rintro ⟨c, h1, h2, h3⟩
      refine ⟨c, by omega, by omega, ?_⟩
      unfold SymbolMap.is_symbol at h3
      rw [if_neg (by omega)] at h3
      simpa using h3

/-- Witness for `contains_symbol_resolution` on the parsed grid `...$.*....`
with the range `[2, 4]` at row 0. -/
theorem contains_symbol_resolution_witness :
    (specResolvedStart (.included 2) >
        specResolvedEnd 10 (.included 4) →
      (SymbolMap.mk 1 10 [false, false, false, true, false, true, false, false, false, false]
        ).contains_symbol (.included 2) (.included 4) 0 = false) ∧
    ((10 : Int) ≤ specResolvedEnd 10 (.included 4) →
      (SymbolMap.mk 1 10 [false, false, false, true, false, true, false, false, false, false]
        ).contains_symbol (.included 2) (.included 4) 0 = false) ∧
    (specResolvedStart (.included 2) ≤ specResolvedEnd 10 (.included 4) →
      specResolvedEnd 10 (.included 4) < (10 : Int) →
      ((SymbolMap.mk 1 10 [false, false, false, true, false, true, false, false, false, false]
        ).contains_symbol (.included 2) (.included 4) 0 = true ↔
        ∃ c : Nat, specResolvedStart (.included 2) ≤ (c : Int) ∧
          (c : Int) ≤ specResolvedEnd 10 (.included 4) ∧
          (SymbolMap.mk 1 10 [false, false, false, true, false, true, false, false, false, false]
            ).is_symbol c (Int.toNat 0) = .ok true)) :=
  contains_symbol_resolution (("...$.*....").toList)
    (SymbolMap.mk 1 10 [false, false, false, true, false, true, false, false, false, false])
    (by decide) (.included 2) (.included 4) 0 (by decide) (by decide)

/-- C2 counterexample: on the one-cell grid `#`, the range with unbounded
lower bound and excluded upper bound 0 resolves per the claim's rules to
`end = -1 < start = 0` (the claim's final sentence singles out exactly this
case and demands false); the code instead floors the excluded upper bound at
0, scans column 0, and returns true. -/
theorem contains_symbol_excluded_zero_cex :
    (SymbolMap.from_str (("#").toList)).map
      (fun m => m.contains_symbol .unbounded (.excluded 0) 0) = .ok true := by
  decide

/-! ### C3: the part-number parse step fails only past `u32::MAX` -/

theorem buildRows_error_msg {L : Nat} {lines : List (List Char)} {n : Nat}
    {e : ParseSchematicError} (h : buildRows L lines n = .error e) :
    ∃ i, e = .Line i "Line length mismatch" := by
  induction lines generalizing n e with
  | nil => simp [buildRows] at h
  | cons line rest ih =>
    rw [buildRows] at h
    by_cases hl : line.length = L
    · rw [if_neg (fun hne => hne hl)] at h
      cases hb : buildRows L rest (n + 1) with
      | error e2 =>
        rw [hb] at h
        simp only [Except.error.injEq] at h
        subst h
        exact ih hb
      | ok tail =>
        rw [hb] at h
        exact absurd h (by simp)
    · rw [if_pos hl] at h
      simp only [Except.error.injEq] at h
      exact ⟨n, h.symm⟩

theorem SymbolMap.from_str_error_msg {s : List Char} {e : ParseSchematicError}
    (h : SymbolMap.from_str s = .error e) :
    e = .NotAscii ∨ e = .InputEmpty ∨ e = .Line 0 "Input line too long" ∨
    ∃ i, e = .Line i "Line length mismatch" := by
  unfold SymbolMap.from_str at h
  cases ha : isAsciiStr s with
  | false =>
    rw [ha] at h
    simp only [Bool.not_false, if_true, Except.error.injEq] at h
    exact Or.inl h.symm
  | true =>
    rw [ha] at h
    simp only [Bool.not_true, Bool.false_eq_true, if_false] at h
    split at h
    · simp only [Except.error.injEq] at h
      exact Or.inr (Or.inl h.symm)
    · split at h
      · simp only [Except.error.injEq] at h
        exact Or.inr (Or.inr (Or.inl h.symm))
      · rename_i first tail ht hlong
        cases hb : buildRows first.length (trimmedLines s) 0 with
        | error e2 =>
          rw [hb] at h
          simp only [Except.error.injEq] at h
          subst h
          exact Or.inr (Or.inr (Or.inr (buildRows_error_msg hb)))
        | ok mp =>
          rw [hb] at h
          exact absurd h (by simp)

/-- The digit run starting at the first digit is all digits and nonempty. -/
theorem run_facts (line : List Char) (fd : Nat) (c : Char) (t : List Char)
    (hdrop : line.drop fd = c :: t) (hc : isAsciiDigit c = true) :
    ((line.drop fd).take
      ((position (fun ch => !(isAsciiDigit ch)) (line.drop fd)).getD (line.length - fd))
     ).all isAsciiDigit = true ∧
    1 ≤ (position (fun ch => !(isAsciiDigit ch)) (line.drop fd)).getD (line.length - fd) := by
  cases hpos : position (fun ch => !(isAsciiDigit ch)) (line.drop fd) with
  | none =>
    simp only [Option.getD]
    constructor
    · have hall := position_eq_none _ _ hpos
      have hdl : line.length - fd = (line.drop fd).length := (List.length_drop fd line).symm
      rw [hdl, List.take_of_length_le (le_refl _)]
      simpa using hall
    · have hdl := List.length_drop fd line
      rw [hdrop] at hdl
      simp at hdl
      omega
  | some j =>
    simp only [Option.getD]
    constructor
    · have htake := position_take_all _ _ _ hpos
      simpa using htake
    · rw [hdrop, position_cons_succ _ _ _ (by simp [hc])] at hpos
      cases hjj : position (fun ch => !(isAsciiDigit ch)) t with
      | none => rw [hjj] at hpos; simp at hpos
      | some j0 =>
        rw [hjj] at hpos
        simp only [Option.map, Option.some.injEq] at hpos
        omega

theorem digitsVal_aux (ds : List Char) (hall : ds.all isAsciiDigit = true) :
    ∀ a : Nat, ds.foldl (fun acc c => 10 * acc + digitVal c) a < (a + 1) * 10 ^ ds.length := by
  induction ds with
  | nil => intro a; simp
  | cons c t ih =>
    intro a
    rw [List.all_cons, Bool.and_eq_true] at hall
    obtain ⟨hc, ht⟩ := hall
    simp only [List.foldl_cons, List.length_cons]
    have hdv : digitVal c ≤ 9 := by
      unfold isAsciiDigit at hc
      rw [Bool.and_eq_true] at hc
      unfold digitVal
      simp only [decide_eq_true_eq] at hc
      omega
    have h1 := ih ht (10 * a + digitVal c)
    have h2 : (10 * a + digitVal c + 1) * 10 ^ t.length ≤ ((a + 1) * 10) * 10 ^ t.length :=
      Nat.mul_le_mul_right _ (by omega)
    calc t.foldl (fun acc c => 10 * acc + digitVal c) (10 * a + digitVal c)
        < (10 * a + digitVal c + 1) * 10 ^ t.length := h1
      _ ≤ ((a + 1) * 10) * 10 ^ t.length := h2
      _ = (a + 1) * 10 ^ (t.length + 1) := by ring

theorem digitsVal_lt (ds : List Char) (hall : ds.all isAsciiDigit = true) :
    digitsVal ds < 10 ^ ds.length := by
  have h := digitsVal_aux ds hall 0
  simpa [digitsVal] using h

theorem parseU32_of_digit_run (ds : List Char) (hne : ds ≠ [])
    (hall : ds.all isAsciiDigit = true) (hfit : digitsVal ds < 2 ^ 32) :
    parseU32 ds = some (digitsVal ds) := by
  cases ds with
  | nil => exact absurd rfl hne
  | cons c t =>
    rw [List.all_cons, Bool.and_eq_true] at hall
    have hplus : c ≠ '+' := by
      intro hcp
      rw [hcp] at hall
      exact absurd hall.1 (by decide)
    have hstep : parseU32 (c :: t) = parseU32Digits (c :: t) := by
      unfold parseU32
      split
      · rename_i rest heq
        injection heq with h1 h2
        exact absurd h1 hplus
      · rfl
    rw [hstep]
    unfold parseU32Digits
    rw [if_neg (by simp), if_neg (by simp [hall.1, hall.2]), if_pos hfit]

theorem scanLineGo_no_parse_error (sym : SymbolMap) (line_len line_no : Nat) (line : List Char)
    (hfit : ∀ i k : Nat, ((line.drop i).take k).all isAsciiDigit = true →
      digitsVal ((line.drop i).take k) < 2 ^ 32) :
    ∀ fuel sp : Nat, ∀ e, scanLineGo sym line_len line_no line fuel sp ≠ .error e := by
  intro fuel
  induction fuel with
  | zero =>
    intro sp e herr
    simp [scanLineGo] at herr
  | succ fuel ih =>
    intro sp e herr
    rw [scanLineGo] at herr
    split at herr
    · split at herr
      · exact absurd herr (by simp)
      · rename_i d hfd
        simp only [] at herr
        have hsub : sp + d +
            ((position (fun ch => !(isAsciiDigit ch)) (line.drop (sp + d))).getD
              (line.length - (sp + d))) - (sp + d) =
            ((position (fun ch => !(isAsciiDigit ch)) (line.drop (sp + d))).getD
              (line.length - (sp + d))) := by
          omega
        rw [hsub] at herr
        split at herr
        · rename_i hparse
          obtain ⟨c, t, hdrop, hc⟩ := position_drop _ _ _ hfd
          have hdrop2 : line.drop (sp + d) = c :: t := by
            rw [← hdrop, List.drop_drop, Nat.add_comm]
          obtain ⟨hall, hx1⟩ := run_facts line (sp + d) c t hdrop2 hc
          have hne : ((line.drop (sp + d)).take
              ((position (fun ch => !(isAsciiDigit ch)) (line.drop (sp + d))).getD
                (line.length - (sp + d)))) ≠ [] := by
            obtain ⟨k, hk⟩ :
                ∃ k, ((position (fun ch => !(isAsciiDigit ch)) (line.drop (sp + d))).getD
                  (line.length - (sp + d))) = k + 1 :=
              ⟨((position (fun ch => !(isAsciiDigit ch)) (line.drop (sp + d))).getD
                (line.length - (sp + d))) - 1, by omega⟩
            rw [hk, hdrop2]
            simp
          have hfits := hfit (sp + d) _ hall
          have hsome := parseU32_of_digit_run _ hne hall hfits
          rw [hparse] at hsome
          exact absurd hsome (by simp)
        · rename_i v hparse
          split at herr
          · rename_i e2 hrec
            exact ih _ _ hrec
          · exact absurd herr (by simp)
    · exact absurd herr (by simp)

theorem scanLines_no_parse_error (sym : SymbolMap) (line_len : Nat)
    (lines : List (List Char))
    (hfit : ∀ l ∈ lines, ∀ i k : Nat, ((l.drop i).take k).all isAsciiDigit = true →
      digitsVal ((l.drop i).take k) < 2 ^ 32) :
    ∀ n e, scanLines sym line_len lines n ≠ .error e := by
  induction lines with
  | nil =>
    intro n e h
    simp [scanLines] at h
  | cons line rest ih =>
    intro n e h
    rw [scanLines] at h
    have hrest : ∀ l ∈ rest, ∀ i k : Nat, ((l.drop i).take k).all isAsciiDigit = true →
        digitsVal ((l.drop i).take k) < 2 ^ 32 :=
      fun l hl => hfit l (List.mem_cons_of_mem line hl)
    split at h
    · exact ih hrest (n + 1) e h
    · split at h
      · rename_i e2 hline
        exact scanLineGo_no_parse_error sym line_len n line
          (hfit line (List.mem_cons_self line rest)) _ _ _ hline
      · rename_i parts hline
        split at h
        · rename_i e2 hrec
          exact ih hrest (n + 1) e2 hrec
        · exact absurd h (by simp)

/-- C3 (amended): for every pure-ASCII input whose trimmed lines all have
the first line's length, `Schematic` construction never fails with the
line-scoped "Failed to parse part number" error, provided every contiguous
all-digit substring of every trimmed line has value below `2 ^ 32`
(equivalently, every maximal digit run fits in a `u32`); a run whose value
exceeds `u32::MAX` does produce that error. -/
theorem part_number_parse_within_u32 (s : List Char)
    (_hascii : isAsciiStr s = true)
    (_hlen : ∀ l ∈ trimmedLines s, l.length = ((trimmedLines s).headD []).length)
    (hfit : ∀ l ∈ trimmedLines s, ∀ i k : Nat,
      ((l.drop i).take k).all isAsciiDigit = true →
      digitsVal ((l.drop i).take k) < 2 ^ 32) :
    ∀ j : Nat, Schematic.from_str s ≠ .error (.Line j "Failed to parse part number") := by
  intro j herr
  unfold Schematic.from_str at herr
  cases hsm : SymbolMap.from_str s with
  | error e =>
    simp only [hsm] at herr
    simp only [Except.error.injEq] at herr
    rcases SymbolMap.from_str_error_msg hsm with h | h | h | ⟨i, h⟩ <;>
      rw [h] at herr
    · exact absurd herr (by simp)
    · exact absurd herr (by simp)
    · rw [ParseSchematicError.Line.injEq] at herr
      exact absurd herr.2 (by decide)
    · rw [ParseSchematicError.Line.injEq] at herr
      exact absurd herr.2 (by decide)
  | ok m =>
    simp only [hsm] at herr
    cases hsc : scanLines m m.line_length (trimmedLines s) 0 with
    | error e2 =>
      exact scanLines_no_parse_error m m.line_length (trimmedLines s) hfit 0 e2 hsc
    | ok parts =>
      simp only [hsc] at herr
      exact absurd herr (by simp)

/-- Any line of at most nine characters satisfies the digit-substring bound
of `part_number_parse_within_u32`. -/
theorem short_line_fits (l : List Char) (hl : l.length ≤ 9) :
    ∀ i k : Nat, ((l.drop i).take k).all isAsciiDigit = true →
      digitsVal ((l.drop i).take k) < 2 ^ 32 := by
  intro i k hall
  have h1 : ((l.drop i).take k).length ≤ 9 := by
    have ht := List.length_take k (l.drop i)
    have hd := List.length_drop i l
    omega
  calc digitsVal ((l.drop i).take k) < 10 ^ ((l.drop i).take k).length :=
      digitsVal_lt _ hall
    _ ≤ 10 ^ 9 := Nat.pow_le_pow_right (by omega) h1
    _ < 2 ^ 32 := by norm_num

/-- Witness for `part_number_parse_within_u32` at the input `12*34`. -/
theorem part_number_parse_witness :
    Schematic.from_str (("12*34").toList) ≠
      .error (.Line 0 "Failed to parse part number") := by
  refine part_number_parse_within_u32 (("12*34").toList) (by decide) (by decide) ?_ 0
  intro l hl i k hall
  have ht : trimmedLines (("12*34").toList) = [("12*34").toList] := by decide
  rw [ht] at hl
  simp only [List.mem_singleton] at hl
  subst hl
  exact short_line_fits _ (by decide) i k hall

/-- C3 counterexample: the ten-digit run `9999999999` is pure ASCII with
uniform line lengths, yet its value exceeds `u32::MAX`, so `u32::from_str`
overflows and `Schematic` construction fails with exactly the line-scoped
error the claim says cannot occur. -/
theorem part_number_overflow_cex :
    isAsciiStr (("9999999999").toList) = true ∧
    ((trimmedLines (("9999999999").toList)).all
      (fun l => l.length == ((trimmedLines (("9999999999").toList)).headD []).length)) = true ∧
    Schematic.from_str (("9999999999").toList) =
      .error (.Line 0 "Failed to parse part number") := by
  exact ⟨by decide, by decide, by decide⟩

/-! ### C8: the valid/invalid lists disjointly partition the scanned parts -/

theorem partitionParts_eq (l : List (PartNumber × Bool)) :
    partitionParts l =
      ((l.filter (fun pb => pb.2)).map (fun pb => pb.1),
       (l.filter (fun pb => !pb.2)).map (fun pb => pb.1)) := by
  induction l with
  | nil => rfl
  | cons pb rest ih =>
    cases hb : pb.2 with
    | true => simp [partitionParts, ih, hb, List.filter_cons]
    | false => simp [partitionParts, ih, hb, List.filter_cons]

/-- The scanned run is never longer than the rest of the line. -/
theorem run_len_le (line : List Char) (fd : Nat) :
    (position (fun ch => !(isAsciiDigit ch)) (line.drop fd)).getD (line.length - fd) ≤
      line.length - fd := by
  cases hpos : position (fun ch => !(isAsciiDigit ch)) (line.drop fd) with
  | none => simp [Option.getD]
  | some j =>
    simp only [Option.getD]
    have hj := position_eq_some_lt _ _ _ hpos
    rw [List.length_drop] at hj
    omega

theorem scanLineGo_flags (sym : SymbolMap) (line_len line_no : Nat) (line : List Char) :
    ∀ fuel sp parts, scanLineGo sym line_len line_no line fuel sp = .ok parts →
      ∀ pb ∈ parts, pb.1.row = line_no ∧
        pb.2 = sym.is_next_to_symbol ((pb.1.pos : Int) - 1)
          (((pb.1.pos + pb.1.len : Nat) : Int)) (line_no : Int) := by
  intro fuel
  induction fuel with
  | zero =>
    intro sp parts h pb hpb
    simp only [scanLineGo, Except.ok.injEq] at h
    subst h
    simp at hpb
  | succ fuel ih =>
    intro sp parts h pb hpb
    rw [scanLineGo] at h
    split at h
    · split at h
      · simp only [Except.ok.injEq] at h
        subst h
        simp at hpb
      · rename_i d hfd
        simp only [] at h
        have hsub : sp + d +
            ((position (fun ch => !(isAsciiDigit ch)) (line.drop (sp + d))).getD
              (line.length - (sp + d))) - (sp + d) =
            ((position (fun ch => !(isAsciiDigit ch)) (line.drop (sp + d))).getD
              (line.length - (sp + d))) := by
          omega
        rw [hsub] at h
        have hlen_take : ((line.drop (sp + d)).take
            ((position (fun ch => !(isAsciiDigit ch)) (line.drop (sp + d))).getD
              (line.length - (sp + d)))).length =
            ((position (fun ch => !(isAsciiDigit ch)) (line.drop (sp + d))).getD
              (line.length - (sp + d))) := by
          rw [List.length_take, List.length_drop]
          have := run_len_le line (sp + d)
          omega
        split at h
        · exact absurd h (by simp)
        · rename_i v hparse
          split at h
          · exact absurd h (by simp)
          · rename_i rest hrec
            simp only [Except.ok.injEq] at h
            subst h
            rw [List.mem_cons] at hpb
            rcases hpb with rfl | hpb2
            · refine ⟨rfl, ?_⟩
              dsimp only
              rw [hlen_take]
            · exact ih _ _ hrec pb hpb2
    · simp only [Except.ok.injEq] at h
      subst h
      simp at hpb

theorem scanLines_flags (sym : SymbolMap) (line_len : Nat) :
    ∀ (lines : List (List Char)) (n : Nat) (parts : List (PartNumber × Bool)),
      scanLines sym line_len lines n = .ok parts →
      ∀ pb ∈ parts, pb.2 = sym.is_next_to_symbol ((pb.1.pos : Int) - 1)
        (((pb.1.pos + pb.1.len : Nat) : Int)) ((pb.1.row : Int)) := by
  intro lines
  induction lines with
  | nil =>
    intro n parts h pb hpb
    simp only [scanLines, Except.ok.injEq] at h
    subst h
    simp at hpb
  | cons line rest ih =>
    intro n parts h pb hpb
    rw [scanLines] at h
    split at h
    · exact ih _ _ h pb hpb
    · split at h
      · exact absurd h (by simp)
      · rename_i lineParts hline
        split at h
        · exact absurd h (by simp)
        · rename_i more hrec
          simp only [Except.ok.injEq] at h
          subst h
          rcases List.mem_append.mp hpb with hmem | hmem
          · unfold scanLine at hline
            obtain ⟨hrow, hflag⟩ := scanLineGo_flags sym line_len n line _ _ _ hline pb hmem
            rw [hflag, hrow]
          · exact ih _ _ hrec pb hmem

theorem schematic_from_str_inv {s : List Char} {sch : Schematic}
    (h : Schematic.from_str s = .ok sch) :
    ∃ m parts, SymbolMap.from_str s = .ok m ∧
      scanLines m m.line_length (trimmedLines s) 0 = .ok parts ∧
      sch.valid = (partitionParts parts).1 ∧ sch.invalid = (partitionParts parts).2 := by
  unfold Schematic.from_str at h
  cases hsm : SymbolMap.from_str s with
  | error e =>
    simp only [hsm] at h
    exact absurd h (by simp)
  | ok m =>
    simp only [hsm] at h
    cases hsc : scanLines m m.line_length (trimmedLines s) 0 with
    | error e =>
      simp only [hsc] at h
      exact absurd h (by simp)
    | ok parts =>
      simp only [hsc, Except.ok.injEq] at h
      subst h
      exact ⟨m, parts, rfl, hsc, rfl, rfl⟩

/-- C8: for every constructed `Schematic`, the scan yields one
part-with-classification pair per digit run; `valid` is exactly the parts
whose padded bounding-box query reported a symbol and `invalid` exactly the
others (each in scan order), every part's recorded flag equals its
bounding-box query, and no part appears in both lists. -/
theorem schematic_partition (s : List Char) (sch : Schematic)
    (h : Schematic.from_str s = .ok sch) :
    ∃ m parts, SymbolMap.from_str s = .ok m ∧
      scanLines m m.line_length (trimmedLines s) 0 = .ok parts ∧
      sch.valid = (parts.filter (fun pb => pb.2)).map (fun pb => pb.1) ∧
      sch.invalid = (parts.filter (fun pb => !pb.2)).map (fun pb => pb.1) ∧
      (∀ pb ∈ parts, pb.2 = m.is_next_to_symbol ((pb.1.pos : Int) - 1)
        (((pb.1.pos + pb.1.len : Nat) : Int)) ((pb.1.row : Int))) ∧
      (∀ p ∈ sch.valid, p ∉ sch.invalid) := by
  obtain ⟨m, parts, hsm, hsc, hv, hi⟩ := schematic_from_str_inv h
  have hv2 : sch.valid = (parts.filter (fun pb => pb.2)).map (fun pb => pb.1) := by
    rw [hv, partitionParts_eq]
  have hi2 : sch.invalid = (parts.filter (fun pb => !pb.2)).map (fun pb => pb.1) := by
    rw [hi, partitionParts_eq]
  have hflags := scanLines_flags m m.line_length (trimmedLines s) 0 parts hsc
  refine ⟨m, parts, hsm, hsc, hv2, hi2, hflags, ?_⟩
  intro p hpv hpi
  rw [hv2] at hpv
  rw [hi2] at hpi
  simp only [List.mem_map, List.mem_filter] at hpv hpi
  obtain ⟨pb1, ⟨hpb1mem, hpb1f⟩, hpb1eq⟩ := hpv
  obtain ⟨pb2, ⟨hpb2mem, hpb2f⟩, hpb2eq⟩ := hpi
  have h1 := hflags pb1 hpb1mem
  have h2 := hflags pb2 hpb2mem
  rw [hpb1eq] at h1
  rw [hpb2eq] at h2
  rw [hpb1f] at h1
  have hf2 : pb2.2 = false := by simpa using hpb2f
  rw [hf2] at h2
  rw [← h1] at h2
  exact absurd h2 (by simp)

/-- Witness for `schematic_partition` at the parsed input `1*....` /
`.....2`: the part 1 is valid, the part 2 is invalid. -/
theorem schematic_partition_witness :
    ∃ m parts, SymbolMap.from_str (("1*....\n.....2").toList) = .ok m ∧
      scanLines m m.line_length (trimmedLines (("1*....\n.....2").toList)) 0 = .ok parts ∧
      (Schematic.mk [PartNumber.mk 0 0 1 1] [PartNumber.mk 1 5 1 2]).valid =
        (parts.filter (fun pb => pb.2)).map (fun pb => pb.1) ∧
      (Schematic.mk [PartNumber.mk 0 0 1 1] [PartNumber.mk 1 5 1 2]).invalid =
        (parts.filter (fun pb => !pb.2)).map (fun pb => pb.1) ∧
      (∀ pb ∈ parts, pb.2 = m.is_next_to_symbol ((pb.1.pos : Int) - 1)
        (((pb.1.pos + pb.1.len : Nat) : Int)) ((pb.1.row : Int))) ∧
      (∀ p ∈ (Schematic.mk [PartNumber.mk 0 0 1 1] [PartNumber.mk 1 5 1 2]).valid,
        p ∉ (Schematic.mk [PartNumber.mk 0 0 1 1] [PartNumber.mk 1 5 1 2]).invalid) :=
  schematic_partition (("1*....\n.....2").toList)
    (Schematic.mk [PartNumber.mk 0 0 1 1] [PartNumber.mk 1 5 1 2]) (by decide)

/-! ### C4: `is_symbol` matches direct classification of the source text -/

/-- C4: for every parsed `SymbolMap` and every in-bounds `(x, y)`,
`is_symbol x y` returns `Ok` of exactly the direct classification of the
character at column `x` of trimmed line `y`: true precisely when it is
neither an ASCII digit nor the placeholder `.`. -/
theorem is_symbol_matches_source (s : List Char) (m : SymbolMap)
    (hm : SymbolMap.from_str s = .ok m) (x y : Nat)
    (hx : x < m.line_length) (hy : y < m.num_lines) :
    m.is_symbol x y =
      .ok (!(isAsciiDigit (((trimmedLines s).getD y []).getD x ' ')) &&
        !((((trimmedLines s).getD y []).getD x ' ') == '.')) := by
  obtain ⟨-, hN, -, -, -, hbuild⟩ := symbolMap_from_str_inv hm
  unfold SymbolMap.is_symbol
  rw [if_neg (by omega)]
  rw [buildRows_ok_getD hbuild y x (by omega) hx]
  rfl

/-- Witness for `is_symbol_matches_source` on the parsed grid `...$.*....`
at the symbol cell `(3, 0)`. -/
theorem is_symbol_matches_source_witness :
    (SymbolMap.mk 1 10 [false, false, false, true, false, true, false, false, false, false]
      ).is_symbol 3 0 =
      .ok (!(isAsciiDigit (((trimmedLines (("...$.*....").toList)).getD 0 []).getD 3 ' ')) &&
        !((((trimmedLines (("...$.*....").toList)).getD 0 []).getD 3 ' ') == '.')) :=
  is_symbol_matches_source (("...$.*....").toList)
    (SymbolMap.mk 1 10 [false, false, false, true, false, true, false, false, false, false])
    (by decide) 3 0 (by decide) (by decide)

/-! ### C9: blank-after-trim lines -/

theorem buildRows_all_nil (lines : List (List Char)) (hall : ∀ l ∈ lines, l = []) :
    ∀ n, buildRows 0 lines n = .ok [] := by
  induction lines with
  | nil => intro n; rfl
  | cons line rest ih =>
    intro n
    have hline : line = [] := hall line (List.mem_cons_self _ _)
    subst hline
    rw [buildRows, if_neg (by simp),
      ih (fun l hl => hall l (List.mem_cons_of_mem _ hl)) (n + 1)]
    rfl

theorem buildRows_mismatch (L : Nat) : ∀ lines : List (List Char),
    (∃ l ∈ lines, l.length ≠ L) → ∀ n,
      ∃ i, buildRows L lines n = .error (.Line i "Line length mismatch") := by
  intro lines
  induction lines with
  | nil =>
    intro hex
    exact absurd hex (by simp)
  | cons line rest ih =>
    intro hex n
    by_cases hl : line.length = L
    · have hex2 : ∃ l ∈ rest, l.length ≠ L := by
        obtain ⟨l, hmem, hne⟩ := hex
        rw [List.mem_cons] at hmem
        rcases hmem with rfl | hmem
        · exact absurd hl hne
        · exact ⟨l, hmem, hne⟩
      obtain ⟨i, hi⟩ := ih hex2 (n + 1)
      refine ⟨i, ?_⟩
      rw [buildRows, if_neg (fun hne => hne hl), hi]
    · exact ⟨n, by rw [buildRows, if_pos hl]⟩

theorem scanLines_all_nil (sym : SymbolMap) (L : Nat) (lines : List (List Char))
    (hall : ∀ l ∈ lines, l = []) : ∀ n, scanLines sym L lines n = .ok [] := by
  induction lines with
  | nil => intro n; rfl
  | cons line rest ih =>
    intro n
    have hline := hall line (List.mem_cons_self _ _)
    rw [scanLines, if_pos hline]
    exact ih (fun l hl => hall l (List.mem_cons_of_mem _ hl)) (n + 1)

/-- C9: if the first line trims to empty then `line_length` is 0, parsing
succeeds exactly when every line trims to empty, and a successful parse has
no part numbers at all; whereas a blank-after-trim line below a non-blank
first line makes the whole parse fail with the line-scoped "Line length
mismatch" error. -/
theorem blank_line_behavior (s : List Char) (hascii : isAsciiStr s = true) :
    ((trimmedLines s).headD [] = [] → trimmedLines s ≠ [] →
      ((∀ m, SymbolMap.from_str s = .ok m → m.line_length = 0) ∧
       ((∃ sch, Schematic.from_str s = .ok sch) ↔ ∀ l ∈ trimmedLines s, l = []) ∧
       (∀ sch, Schematic.from_str s = .ok sch →
         sch.valid = [] ∧ sch.invalid = [] ∧ sch.num_valid = 0))) ∧
    ((trimmedLines s).headD [] ≠ [] → ((trimmedLines s).headD []).length < 2 ^ 63 - 1 →
      (∃ l ∈ trimmedLines s, l = []) →
      ∃ i, Schematic.from_str s = .error (.Line i "Line length mismatch")) := by
  constructor
  · intro hhead hne
    have hLzero : ∀ m, SymbolMap.from_str s = .ok m → m.line_length = 0 := by
      intro m hm
      obtain ⟨-, -, hL, -, -, -⟩ := symbolMap_from_str_inv hm
      rw [hL, hhead]
      rfl
    have hforward : ∀ sch, Schematic.from_str s = .ok sch → ∀ l ∈ trimmedLines s, l = [] := by
      intro sch hsch l hl
      obtain ⟨m, parts, hsm, hsc, hv, hi⟩ := schematic_from_str_inv hsch
      obtain ⟨-, -, -, -, -, hbuild⟩ := symbolMap_from_str_inv hsm
      have hlen := (buildRows_ok_length hbuild).2 l hl
      rw [hLzero m hsm] at hlen
      exact List.eq_nil_of_length_eq_zero hlen
    cases ht : trimmedLines s with
    | nil => exact absurd ht hne
    | cons first rest =>
      have hfirst : first = [] := by
        rw [ht] at hhead
        exact hhead
      subst hfirst
      refine ⟨hLzero, ⟨?_, ?_⟩, ?_⟩
      · rintro ⟨sch, hsch⟩
        rw [← ht]
        exact hforward sch hsch
      · intro hall
        have hall2 : ∀ l ∈ trimmedLines s, l = [] := by
          rw [ht]
          exact hall
        have hsm : SymbolMap.from_str s = .ok ⟨(trimmedLines s).length, 0, []⟩ := by
          unfold SymbolMap.from_str
          rw [hascii]
          simp only [Bool.not_true, Bool.false_eq_true, if_false]
          simp only [ht]
          rw [if_neg (by decide)]
          simp only [List.length_nil]
          rw [buildRows_all_nil ([] :: rest) hall 0]
        refine ⟨⟨[], []⟩, ?_⟩
        unfold Schematic.from_str
        simp only [hsm]
        rw [scanLines_all_nil ⟨(trimmedLines s).length, 0, []⟩
          (SymbolMap.mk (trimmedLines s).length 0 []).line_length (trimmedLines s) hall2 0]
        rfl
      · intro sch hsch
        have hall := hforward sch hsch
        obtain ⟨m, parts, hsm, hsc, hv, hi⟩ := schematic_from_str_inv hsch
        have hnil := scanLines_all_nil m m.line_length (trimmedLines s) hall 0
        rw [hsc] at hnil
        simp only [Except.ok.injEq] at hnil
        subst hnil
        refine ⟨by rw [hv]; rfl, by rw [hi]; rfl, ?_⟩
        unfold Schematic.num_valid
        rw [hv]
        rfl
  · intro hhead hlen hex
    cases ht : trimmedLines s with
    | nil =>
      obtain ⟨l, hmem, -⟩ := hex
      rw [ht] at hmem
      exact absurd hmem (by simp)
    | cons first rest =>
      have hfne : first ≠ [] := by
        rw [ht] at hhead
        exact hhead
      have hex2 : ∃ l ∈ trimmedLines s, l.length ≠ first.length := by
        obtain ⟨l, hmem, hl⟩ := hex
        refine ⟨l, hmem, ?_⟩
        subst hl
        simp only [List.length_nil]
        intro h0
        exact hfne (List.eq_nil_of_length_eq_zero h0.symm)
      obtain ⟨i, hi⟩ := buildRows_mismatch first.length (trimmedLines s) hex2 0
      have hflen : first.length < 2 ^ 63 - 1 := by
        rw [ht] at hlen
        exact hlen
      have hsm : SymbolMap.from_str s = .error (.Line i "Line length mismatch") := by
        unfold SymbolMap.from_str
        rw [hascii]
        simp only [Bool.not_true, Bool.false_eq_true, if_false]
        rw [ht] at hi
        simp only [ht]
        rw [if_neg (by omega), hi]
      refine ⟨i, ?_⟩
      unfold Schematic.from_str
      simp only [hsm]

/-- Witness for `blank_line_behavior` at the concrete input consisting of a
single newline, whose one line trims to empty. -/
theorem blank_line_behavior_witness :
    ((trimmedLines (("\n").toList)).headD [] = [] → trimmedLines (("\n").toList) ≠ [] →
      ((∀ m, SymbolMap.from_str (("\n").toList) = .ok m → m.line_length = 0) ∧
       ((∃ sch, Schematic.from_str (("\n").toList) = .ok sch) ↔
         ∀ l ∈ trimmedLines (("\n").toList), l = []) ∧
       (∀ sch, Schematic.from_str (("\n").toList) = .ok sch →
         sch.valid = [] ∧ sch.invalid = [] ∧ sch.num_valid = 0))) ∧
    ((trimmedLines (("\n").toList)).headD [] ≠ [] →
      ((trimmedLines (("\n").toList)).headD []).length < 2 ^ 63 - 1 →
      (∃ l ∈ trimmedLines (("\n").toList), l = []) →
      ∃ i, Schematic.from_str (("\n").toList) = .error (.Line i "Line length mismatch")) :=
  blank_line_behavior (("\n").toList) (by decide)

end AocDay3
